import Mathlib

/-!
Verification of the core-explorer-kit ingestion engine.

Shallow embedding of `backend/app` (signature_extractor.py, merge_analyzer.py,
git_processor.py, file_change_processor.py, neo4j_driver.py) and proofs about
the claims of the specification.  External collaborators (the git repository
accessor and the graph store) are modelled at the boundary described in the
specification: repository walks become explicit lists, subprocess results
become pairs of decoded streams, and graph writes become state updates.
-/

namespace CoreExplorer

/-! ### Signature extractor (signature_extractor.py)

`parse_gpg_fingerprint` applies three prioritized regular expressions with
`re.IGNORECASE` to the decoded tool output.  The patterns involved use only
literals, the classes `\s`, `[\s:]` and `[0-9A-F]`, bounded repetition and
literal alternation whose branches are pairwise exclusive at any position, so
leftmost search with local alternation is an exact model of `re.search`. -/

/-- The characters matched by `\s` on the ASCII inputs at hand. -/
def isWsChar (c : Char) : Bool :=
  c = ' ' || c = '\t' || c = '\n' || c = '\r' || c = '\x0b' || c = '\x0c'

/-- `[0-9A-F]` under `re.IGNORECASE`. -/
def isHexCI (c : Char) : Bool :=
  (decide ('0' ≤ c) && decide (c ≤ '9')) ||
  (decide ('A' ≤ c) && decide (c ≤ 'F')) ||
  (decide ('a' ≤ c) && decide (c ≤ 'f'))

/-- Case-insensitive character comparison (`re.IGNORECASE` literal match). -/
def charEqCI (a b : Char) : Bool := a.toLower = b.toLower

/-- Match a literal case-insensitively, returning the remaining input. -/
def dropLitCI : List Char → List Char → Option (List Char)
  | [], s => some s
  | _ :: _, [] => none
  | p :: ps, c :: cs => if charEqCI p c then dropLitCI ps cs else none

/-- `[0-9A-F]{n}`: exactly `n` hex characters. -/
def takeHex : Nat → List Char → Option (List Char × List Char)
  | 0, s => some ([], s)
  | _ + 1, [] => none
  | n + 1, c :: cs =>
    if isHexCI c then (takeHex n cs).map (fun g => (c :: g.1, g.2)) else none

/-- `(?:\s+[0-9A-F]{4}){k}`, keeping the matched text (separators included),
as the capture group of pattern 1 does. -/
def matchHexGroups : Nat → List Char → Option (List Char × List Char)
  | 0, s => some ([], s)
  | k + 1, s =>
    let ws := s.takeWhile isWsChar
    let s1 := s.dropWhile isWsChar
    if ws.isEmpty then none
    else
      (takeHex 4 s1).bind fun g =>
        (matchHexGroups k g.2).map fun c => (ws ++ g.1 ++ c.1, c.2)

/-- Pattern 1 at a fixed position:
`Primary key fingerprint:\s*([0-9A-F]{4}(?:\s+[0-9A-F]{4}){9})`. -/
def matchP1At (s : List Char) : Option (List Char) := do
  let s ← dropLitCI "Primary key fingerprint:".data s
  let s1 := s.dropWhile isWsChar
  let g0 ← takeHex 4 s1
  let rest ← matchHexGroups 9 g0.2
  pure (g0.1 ++ rest.1)

/-- Literal alternation: first branch that matches at this position.  The
branches used below are pairwise exclusive at any position, so this is
faithful to the regex engine. -/
def matchAltCI (alts : List (List Char)) (s : List Char) : Option (List Char) :=
  match alts with
  | [] => none
  | a :: rest =>
    match dropLitCI a s with
    | some s1 => some s1
    | none => matchAltCI rest s

/-- Pattern 2 at a fixed position:
`using\s+(?:RSA|ECDSA|EDDSA|DSA)\s+key\s+([0-9A-F]{40})`. -/
def matchP2At (s : List Char) : Option (List Char) := do
  let s ← dropLitCI "using".data s
  let w1 := s.takeWhile isWsChar
  if w1.isEmpty then none
  else do
    let s1 := s.dropWhile isWsChar
    let s2 ← matchAltCI ["RSA".data, "ECDSA".data, "EDDSA".data, "DSA".data] s1
    let w2 := s2.takeWhile isWsChar
    if w2.isEmpty then none
    else do
      let s3 := s2.dropWhile isWsChar
      let s4 ← dropLitCI "key".data s3
      let w3 := s4.takeWhile isWsChar
      if w3.isEmpty then none
      else do
        let s5 := s4.dropWhile isWsChar
        let fp ← takeHex 40 s5
        pure fp.1

/-- The alternation `(?:key\s+id|keyid|fingerprint)` of pattern 3. -/
def matchKeyLabelAt (s : List Char) : Option (List Char) :=
  match
    (do
      let s1 ← dropLitCI "key".data s
      let w := s1.takeWhile isWsChar
      if w.isEmpty then none else dropLitCI "id".data (s1.dropWhile isWsChar))
  with
  | some r => some r
  | none =>
    match dropLitCI "keyid".data s with
    | some r => some r
    | none => dropLitCI "fingerprint".data s

/-- Pattern 3 at a fixed position:
`(?:key\s+id|keyid|fingerprint)[\s:]*([0-9A-F]{40})`. -/
def matchP3At (s : List Char) : Option (List Char) := do
  let s1 ← matchKeyLabelAt s
  let s2 := s1.dropWhile (fun c => isWsChar c || c = ':')
  let fp ← takeHex 40 s2
  pure fp.1

/-- `re.search`: try the pattern at each position, leftmost first. -/
def searchFirst (f : List Char → Option (List Char)) : List Char → Option (List Char)
  | [] => f []
  | c :: t =>
    match f (c :: t) with
    | some r => some r
    | none => searchFirst f t

/-- `parse_gpg_fingerprint` (signature_extractor.py lines 161-198): pattern 1
(spaces removed from the capture, upper-cased, kept only when 40 characters
remain), then pattern 2, then pattern 3; no generic fallback. -/
def parse_gpg_fingerprint (output : String) : Option String :=
  let cs := output.data
  let r1 : Option String :=
    match searchFirst matchP1At cs with
    | some cap =>
      let fp := (cap.filter (fun c => c ≠ ' ')).map Char.toUpper
      if fp.length = 40 then some (String.mk fp) else none
    | none => none
  match r1 with
  | some fp => some fp
  | none =>
    match searchFirst matchP2At cs with
    | some fp => some (String.mk (fp.map Char.toUpper))
    | none =>
      match searchFirst matchP3At cs with
      | some fp => some (String.mk (fp.map Char.toUpper))
      | none => none

/-- Python's `needle in hay` on lists of characters. -/
def listHasInfix (needle : List Char) : List Char → Bool
  | [] => needle.isEmpty
  | c :: t => needle.isPrefixOf (c :: t) || listHasInfix needle t

/-- Python's substring test `needle in hay`. -/
def hasSubstr (hay needle : String) : Bool := listHasInfix needle.data hay.data

/-- The fixed markers of the `has_signature_indicator` test, in source
order (signature_extractor.py lines 56-65, 127-136). -/
def signatureMarkers : List String :=
  ["gpg:", "Good signature", "Bad signature", "Primary key fingerprint:",
   "using RSA key", "using ECDSA key", "using EDDSA key", "using DSA key"]

/-- The fixed marker test of `extract_commit_signature` /
`extract_tag_signature`: an or-chain of Python `in` tests, one per marker. -/
def has_signature_indicator (output : String) : Bool :=
  signatureMarkers.any (fun m => hasSubstr output m)

/-- The `{fingerprint, method, valid}` record returned by the extractors. -/
structure SignatureInfo where
  fingerprint : String
  method : String
  valid : Option Bool
deriving DecidableEq

/-- Shared tail of both extractors: marker check, then fingerprint parse,
returning the record only when a fingerprint was extracted. -/
def detect_signature (output : String) : Option SignatureInfo :=
  if has_signature_indicator output then
    match parse_gpg_fingerprint output with
    | some fp => some ⟨fp, "gpg", none⟩
    | none => none
  else none

/-- `extract_commit_signature` (lines 15-90) past the subprocess call: the
decoded standard output and error streams are combined as
`stdout + '\n' + stderr` and inspected together. -/
def extract_commit_signature (out err : String) : Option SignatureInfo :=
  detect_signature (out ++ "\n" ++ err)

/-- A tag reference: `hasTagObject` is `tag_ref.tag is not None`
(true exactly for annotated tags). -/
structure TagRefM where
  name : String
  hasTagObject : Bool
deriving DecidableEq

/-- `extract_tag_signature` (lines 93-158).  `tool` is the external
`git show --show-signature` invocation, returning the decoded
(stdout, stderr) pair; the returned list records which object ids the tool
was invoked on.  Lightweight tags return before any invocation; for
annotated tags only `result.stdout` is decoded and inspected
(lines 120-124). -/
def extract_tag_signature (t : TagRefM) (tool : String → String × String) :
    Option SignatureInfo × List String :=
  if t.hasTagObject then
    let r := tool t.name
    (detect_signature r.1, [t.name])
  else (none, [])

/-! ### Merge ancestry analyzer (merge_analyzer.py)

`repo.iter_commits(start)` is the repository accessor of the specification:
it enumerates the commits reachable from `start` (the start included) in the
tool's iteration order.  It is modelled as an oracle
`iter : String → Except String (List String)`; an `error` result stands for
an exception raised during the walk. -/

/-- The second-parent loop of `compute_merged_commits` (lines 44-50): every
visited hash is added to the set, and the walk breaks after adding the first
parent's hash. -/
def collectUpto (stop : String) : List String → List String
  | [] => []
  | h :: t => if h = stop then [h] else h :: collectUpto stop t

/-- `compute_merged_commits` (merge_analyzer.py lines 14-69).  Fewer than two
parents yields the empty set; an exception in either ancestry walk is caught
and yields the empty set; otherwise the result is the early-stopped
second-parent set minus the full first-parent set minus the merge's own
hash.  The Python function returns `list(set)` in arbitrary order, so the
result is modelled as a `Finset`. -/
def compute_merged_commits (parents : List String) (mergeSha : String)
    (iter : String → Except String (List String)) : Finset String :=
  match parents with
  | p1 :: p2 :: _ =>
    (match iter p2 with
     | .error _ => ∅
     | .ok l2 =>
       match iter p1 with
       | .error _ => ∅
       | .ok l1 => ((collectUpto p1 l2).toFinset \ l1.toFinset).erase mergeSha)
  | _ => ∅

/-! ### Commit discovery (git_processor.py, process_commits_new_schema)

The repository is modelled by the per-ref iteration sequences (remote refs
first, then the local refs not already covered, in the order the code
assembles `refs_to_check`) and the full-log sequence used by the fallback.
The persisted set `existing_shas` is a `Finset`.  `commit_limit` is `None`
throughout (the claims do not involve the limit). -/

/-- One per-ref walk (lines 244-253): stop at the first hash already in
`existing_shas`; otherwise add to the global `seen_shas` / `new_commits`
accumulators unless already seen. -/
def walkRef (existing : Finset String) : List String → Finset String → List String →
    Finset String × List String
  | [], seen, acc => (seen, acc)
  | h :: t, seen, acc =>
    if h ∈ existing then (seen, acc)
    else if h ∈ seen then walkRef existing t seen acc
    else walkRef existing t (insert h seen) (acc ++ [h])

/-- The loop over `refs_to_check` with the shared accumulators. -/
def discoverFromRefs (existing : Finset String) (refSeqs : List (List String)) :
    Finset String × List String :=
  refSeqs.foldl (fun p s => walkRef existing s p.1 p.2) (∅, [])

/-- `process_commits_new_schema` (lines 217-264), discovery portion, with
`commit_limit = None`: walk every ref, and if nothing was found fall back to
scanning the full log for hashes absent from the persisted set. -/
def process_commits_new_schema (existing : Finset String)
    (refSeqs : List (List String)) (logSeq : List String) : List String :=
  let fromRefs := (discoverFromRefs existing refSeqs).2
  if fromRefs.isEmpty then logSeq.filter (fun h => decide (h ∉ existing))
  else fromRefs

/-- The persisted set is ancestor-closed along an iteration sequence: once a
persisted commit appears, every later (ancestral) position is persisted too.
This is the specification's "ancestors are assumed already imported". -/
def ancestorClosed (existing : Finset String) (s : List String) : Prop :=
  ∀ i j : Fin s.length, (i : Nat) ≤ (j : Nat) → s.get i ∈ existing → s.get j ∈ existing

instance (existing : Finset String) (s : List String) :
    Decidable (ancestorClosed existing s) :=
  inferInstanceAs (Decidable (∀ i j : Fin s.length,
    (i : Nat) ≤ (j : Nat) → s.get i ∈ existing → s.get j ∈ existing))

/-! ### File change extractor (file_change_processor.py)

A `GitDiff` is the per-path record the repository accessor yields for a
commit's unified diff against its first parent (or the empty tree for a root
commit); `diffText` is the decoded patch body (empty when the accessor
yields no patch payload). -/

structure GitDiff where
  new_file : Bool
  deleted_file : Bool
  renamed_file : Bool
  a_path : Option String
  b_path : Option String
  diffText : String
deriving DecidableEq

structure FileChangeRec where
  path : Option String
  status : String
  add : Nat
  del : Nat
  rename_from : Option String
  isSensitive : Bool
deriving DecidableEq

/-- The configured sensitive path prefixes (file_change_processor.py 10-16). -/
def SENSITIVE_PATHS : List String :=
  ["src/policy", "src/consensus", "src/rpc/mempool.cpp",
   "contrib/verify-commits", "contrib/verify-binaries"]

/-- Python's `s.startswith(pre)`. -/
def pyStartsWith (s pre : String) : Bool := pre.data.isPrefixOf s.data

/-- `is_sensitive_path` (line 19-21). -/
def is_sensitive_path (path : String) : Bool :=
  SENSITIVE_PATHS.any (fun pre => pyStartsWith path pre)

/-- Python's `b if b else a` on optional strings (`None` and `""` are both
falsy). -/
def truthyOr (b a : Option String) : Option String :=
  match b with
  | some s => if s.isEmpty then a else some s
  | none => a

/-- Python's `text.split('\\n')`, on the character list. -/
def splitNl : List Char → List (List Char)
  | [] => [[]]
  | c :: t =>
    if c = '\n' then [] :: splitNl t
    else
      match splitNl t with
      | l :: ls => (c :: l) :: ls
      | [] => [[c]]

/-- A line counted as an addition (line 79): starts with `+` but not with
`+++`. -/
def addLineP (line : List Char) : Bool :=
  List.isPrefixOf ['+'] line && !(List.isPrefixOf ['+', '+', '+'] line)

/-- A line counted as a deletion (line 81, an `elif`): starts with `-` but
not with `---`. -/
def delLineP (line : List Char) : Bool :=
  List.isPrefixOf ['-'] line && !(List.isPrefixOf ['-', '-', '-'] line)

/-- The line-counting loop (lines 76-82). -/
def countDiffLines (t : String) : Nat × Nat :=
  (splitNl t.data).foldl
    (fun acc line =>
      if addLineP line then (acc.1 + 1, acc.2)
      else if delLineP line then (acc.1, acc.2 + 1)
      else acc)
    (0, 0)

/-- The per-diff body of `compute_file_changes` (lines 48-98).  A diff from
the accessor always carries at least one path, so the sensitivity test reads
the selected path directly. -/
def processDiff (sensitive_paths : List String) (d : GitDiff) : FileChangeRec :=
  let status : String :=
    if d.new_file then "A"
    else if d.deleted_file then "D"
    else if d.renamed_file then "R"
    else "M"
  let path := truthyOr d.b_path d.a_path
  let renameFrom := if d.renamed_file && decide (d.a_path ≠ path) then d.a_path else none
  let counts := if d.diffText.data.isEmpty then (0, 0) else countDiffLines d.diffText
  let isSens := sensitive_paths.any (fun pre => pyStartsWith (path.getD "") pre)
  ⟨path, status, counts.1, counts.2, renameFrom, isSens⟩

/-- `compute_file_changes` (lines 24-100): diff against the first parent, or
against the empty tree for a root commit, then process every diff record.
`diffOf` is the accessor's diff computation, taking the first parent's hash
(`none` for the root case). -/
def compute_file_changes (parents : List String)
    (diffOf : Option String → List GitDiff) (sensitive_paths : List String) :
    List FileChangeRec :=
  let diffs := match parents with
    | [] => diffOf none
    | p :: _ => diffOf (some p)
  diffs.map (processDiff sensitive_paths)

/-- The claim's description of the added count: the number of `+` lines of
the unified diff that are not `+++` lines. -/
def claimedAdd (t : String) : Nat := ((splitNl t.data).filter addLineP).length

/-- The claim's description of the deleted count: the number of `-` lines
that are not `---` lines. -/
def claimedDel (t : String) : Nat := ((splitNl t.data).filter delLineP).length

/-! ### Graph persistence: batch commit upsert (neo4j_driver.py)

`_batch_upsert_commits_tx` executes, for each row in order, a sequence of
Cypher `MERGE` clauses.  The graph state records Commit nodes by
`commit_hash` (a bare node created by a parent `MERGE` carries no detail
properties yet, hence the inner `Option`), Identity nodes by their
(source, name, email) key, and the four edge kinds with their properties.
Each `MERGE ... SET` is compiled to an atomic update; a whole batch is the
sequential execution of the compiled updates, which is also exactly what the
1,000-row transaction chunks of `batch_upsert_commits` perform. -/

structure IdentityKey where
  source : String
  name : String
  email : String
deriving DecidableEq

structure CommitProps where
  message : String
  summary : String
  authoredAt : Int
  committedAt : Int
  isMerge : Bool
deriving DecidableEq

structure CommitRow where
  sha : String
  message : String
  summary : String
  authoredAt : Int
  committedAt : Int
  isMerge : Bool
  parents : List String
  author : IdentityKey
  committer : IdentityKey
  coauthors : List IdentityKey
deriving DecidableEq

@[ext]
structure GraphState where
  commits : String → Option (Option CommitProps)
  identities : IdentityKey → Bool
  authored : IdentityKey → String → Option Int
  committed : IdentityKey → String → Option Int
  coAuthored : IdentityKey → String → Bool
  hasParent : String → String → Nat → Bool

/-- One atomic `MERGE`/`SET` step of the upsert query. -/
inductive GraphUpd where
  | setCommitProps (sha : String) (p : CommitProps)
  | mergeBareCommit (sha : String)
  | mergeIdentity (k : IdentityKey)
  | setAuthored (k : IdentityKey) (sha : String) (ts : Int)
  | setCommitted (k : IdentityKey) (sha : String) (ts : Int)
  | mergeCoAuthored (k : IdentityKey) (sha : String)
  | mergeHasParent (child : String) (parent : String) (idx : Nat)
deriving DecidableEq

def applyUpd (s : GraphState) : GraphUpd → GraphState
  | .setCommitProps sha p =>
    { s with commits := fun x => if x = sha then some (some p) else s.commits x }
  | .mergeBareCommit sha =>
    { s with commits := fun x =>
        if x = sha then some ((s.commits sha).getD none) else s.commits x }
  | .mergeIdentity k =>
    { s with identities := fun x => if x = k then true else s.identities x }
  | .setAuthored k sha ts =>
    { s with authored := fun i c => if (i, c) = (k, sha) then some ts else s.authored i c }
  | .setCommitted k sha ts =>
    { s with committed := fun i c => if (i, c) = (k, sha) then some ts else s.committed i c }
  | .mergeCoAuthored k sha =>
    { s with coAuthored := fun i c => if (i, c) = (k, sha) then true else s.coAuthored i c }
  | .mergeHasParent child parent idx =>
    { s with hasParent := fun a b i =>
        if (a, b, i) = (child, parent, idx) then true else s.hasParent a b i }

/-- The update sequence of `_batch_upsert_commits_tx` (lines 561-601) for one
row: upsert the Commit with all properties set on create and on match, merge
the author Identity and the AUTHORED edge (setting `at` on create and on
match), likewise the committer, merge Identity and CO_AUTHORED edge per
co-author, and per parent ordinal merge a bare parent Commit node and the
HAS_PARENT edge keyed by source, target and `idx`. -/
def compileRow (r : CommitRow) : List GraphUpd :=
  [.setCommitProps r.sha ⟨r.message, r.summary, r.authoredAt, r.committedAt, r.isMerge⟩,
   .mergeIdentity r.author, .setAuthored r.author r.sha r.authoredAt,
   .mergeIdentity r.committer, .setCommitted r.committer r.sha r.committedAt]
  ++ r.coauthors.flatMap (fun co => [.mergeIdentity co, .mergeCoAuthored co r.sha])
  ++ r.parents.enum.flatMap (fun pi => [.mergeBareCommit pi.2, .mergeHasParent r.sha pi.2 pi.1])

def runUpds (s : GraphState) (L : List GraphUpd) : GraphState := L.foldl applyUpd s

/-- `batch_upsert_commits` (lines 542-602): the rows, in order, each compiled
to their update sequence. -/
def batch_upsert_commits (s : GraphState) (rows : List CommitRow) : GraphState :=
  runUpds s (rows.flatMap compileRow)

/-! ### Ingest run orchestrator (git_processor.py, process_git_data)

The run is modelled as the sequence of graph-store writes it issues.  The
write payloads of the enrichment stages depend on repository and store
reads, so they enter as parameters; the orchestrator's own control flow —
in particular the stage gate between the backbone write and every
enrichment write — is the translated part. -/

structure RefRow where
  name : String
  kind : String
  remote : String
  tipSha : String
deriving DecidableEq

structure TagRow where
  name : String
  taggerAt : Int
  message : String
  targetSha : String
  tagger : IdentityKey
deriving DecidableEq

structure FileChangeRow where
  sha : String
  changes : List FileChangeRec
deriving DecidableEq

structure EventRow where
  type : String
  source : String
  ts : Int
  artifactSha : String
deriving DecidableEq

structure SignatureRow where
  artifactType : String
  artifactId : String
  fingerprint : String
  valid : Option Bool
  method : String
deriving DecidableEq

structure MergeRow where
  mergeSha : String
  includedShas : List String
deriving DecidableEq

inductive DbWrite where
  | createConstraints
  | createIngestRun (runId : String)
  | upsertCommits (rows : List CommitRow)
  | setRunStatus (runId : String) (status : String)
  | snapshotRefs (runId : String) (refs : List RefRow)
  | upsertTags (tags : List TagRow)
  | upsertFileChanges (rows : List FileChangeRow)
  | createEvents (events : List EventRow)
  | upsertPgpKeys (fps : List String)
  | createSignatures (rows : List SignatureRow)
  | markChecked (shas : List String)
  | createMergedIncludes (rows : List MergeRow)
deriving DecidableEq

/-- `process_git_data` (git_processor.py lines 36-121, new-schema path) as
the sequence of store writes it issues.  `gateStatus` is the status field of
the stage-gate re-read (`None` when the run record was not found);
the `stageWrites` lists are the writes the individual enrichment stages
would issue, abstracted as parameters. -/
def process_git_data (runId : String) (commitRows : List CommitRow)
    (gateStatus : Option String)
    (refsWrites fileChangeWrites eventWrites commitSigWrites tagSigWrites
      mergeWrites : List DbWrite) : List DbWrite :=
  [DbWrite.createConstraints, .createIngestRun runId, .upsertCommits commitRows,
   .setRunStatus runId "COMMITS_COMPLETE"]
  ++ (if gateStatus = some "COMMITS_COMPLETE" then
        refsWrites ++ fileChangeWrites ++ eventWrites
        ++ commitSigWrites ++ [.setRunStatus runId "COMMITS_COMPLETE"]
        ++ tagSigWrites
        ++ mergeWrites ++ [.setRunStatus runId "COMMITS_COMPLETE"]
        ++ [.setRunStatus runId "COMPLETED"]
      else [])

/-- An abstract store state interpreting the writes.  Enrichment writes are
append-only records; nothing in the write language deletes commits. -/
structure DbState where
  graph : GraphState
  constraintsCreated : Bool
  runStatus : String → Option String
  refStates : List (String × RefRow)
  tagObjects : List TagRow
  fileChanges : List FileChangeRow
  events : List EventRow
  pgpKeys : List String
  signatures : List SignatureRow
  checkedMarks : List String
  mergedIncludes : List MergeRow

def applyWrite (s : DbState) : DbWrite → DbState
  | .createConstraints => { s with constraintsCreated := true }
  | .createIngestRun id =>
    { s with runStatus := fun r => if r = id then some "STARTED" else s.runStatus r }
  | .upsertCommits rows => { s with graph := batch_upsert_commits s.graph rows }
  | .setRunStatus id st =>
    { s with runStatus := fun r => if r = id then some st else s.runStatus r }
  | .snapshotRefs id refs =>
    { s with refStates := s.refStates ++ refs.map (fun rr => (id, rr)) }
  | .upsertTags tags => { s with tagObjects := s.tagObjects ++ tags }
  | .upsertFileChanges rows => { s with fileChanges := s.fileChanges ++ rows }
  | .createEvents evs => { s with events := s.events ++ evs }
  | .upsertPgpKeys fps => { s with pgpKeys := s.pgpKeys ++ fps }
  | .createSignatures rows => { s with signatures := s.signatures ++ rows }
  | .markChecked shas => { s with checkedMarks := s.checkedMarks ++ shas }
  | .createMergedIncludes rows => { s with mergedIncludes := s.mergedIncludes ++ rows }

def runWrites (s : DbState) (ws : List DbWrite) : DbState := ws.foldl applyWrite s

/-! ### Commit signature stage (git_processor.py, process_commit_signatures)

The stage reads the set of commits not yet signature-checked and without a
HAS_SIGNATURE edge, extracts signatures (the extraction, including the
subprocess and `repo.commit` lookup, is the oracle: an `error` result is a
raised exception, `ok none` an unsigned commit, `ok (some fp)` an extracted
fingerprint), accumulates signature rows for fingerprints passing the
40-uppercase-hex validation, and marks every processed commit as checked.
The per-100 batch flushes only change when writes happen, not the final
store contents, so the model applies the accumulated writes once. -/

structure SigCommitRec where
  sha : String
  checked : Bool
  hasSig : Bool
deriving DecidableEq

structure SigDb where
  commits : List SigCommitRec
  sigRows : List (String × String)
deriving DecidableEq

/-- The selection query (lines 572-577): commits with `signature_checked`
null or false and no HAS_SIGNATURE edge. -/
def selectUnchecked (db : SigDb) : List String :=
  (db.commits.filter (fun c => !c.checked && !c.hasSig)).map (fun c => c.sha)

/-- The fingerprint validation of lines 673: exactly 40 characters, each an
uppercase hex digit. -/
def valid40 (fp : String) : Bool :=
  decide (fp.length = 40) && fp.data.all (fun c => "0123456789ABCDEF".data.contains c)

/-- The extraction loop (lines 661-709): every selected sha is appended to
`processed_commits` — on success, on an unsigned result, on a rejected
fingerprint, and in the exception handler alike — and valid fingerprints
are accumulated as signature rows. -/
def collectSigs (sel : List String)
    (oracle : String → Except String (Option String)) :
    List String × List (String × String) :=
  sel.foldl
    (fun st sha =>
      match oracle sha with
      | .error _ => (st.1 ++ [sha], st.2)
      | .ok none => (st.1 ++ [sha], st.2)
      | .ok (some fp) =>
        if valid40 fp then (st.1 ++ [sha], st.2 ++ [(sha, fp)])
        else (st.1 ++ [sha], st.2))
    ([], [])

/-- `batch_create_signatures` on the store model: the matched commits gain a
HAS_SIGNATURE edge. -/
def applySigWrites (db : SigDb) (rows : List (String × String)) : SigDb :=
  { commits := db.commits.map
      (fun c => if rows.any (fun r => r.1 = c.sha) then { c with hasSig := true } else c),
    sigRows := db.sigRows ++ rows }

/-- `batch_mark_commits_checked_for_signatures`
(neo4j_driver.py lines 1002-1029): `SET c.signature_checked = true` for every
listed sha. -/
def markCheckedDb (db : SigDb) (shas : List String) : SigDb :=
  { db with
    commits := db.commits.map
      (fun c => if c.sha ∈ shas then { c with checked := true } else c) }

/-- `process_commit_signatures` (lines 531-787) on the store model:
select, extract, write signatures, mark every processed commit checked. -/
def process_commit_signatures (db : SigDb)
    (oracle : String → Except String (Option String)) : SigDb :=
  let sel := selectUnchecked db
  let res := collectSigs sel oracle
  markCheckedDb (applySigWrites db res.2) res.1

/-! ## Theorems -/

/-! ### Helper lemmas -/

theorem listHasInfix_append_left (needle a b : List Char)
    (h : listHasInfix needle b = true) : listHasInfix needle (a ++ b) = true := by
  induction a with
  | nil => exact h
  | cons c t ih =>
    show listHasInfix needle (c :: (t ++ b)) = true
    unfold listHasInfix
    rcases needle with _ | ⟨d, ds⟩
    · simp
    · simp only [Bool.or_eq_true]
      exact Or.inr ih

theorem hasSubstr_append_left (pre s sub : String)
    (h : hasSubstr s sub = true) : hasSubstr (pre ++ s) sub = true := by
  unfold hasSubstr at h ⊢
  rw [String.data_append]
  exact listHasInfix_append_left _ _ _ h

theorem indicator_append_left (pre s : String)
    (h : has_signature_indicator s = true) :
    has_signature_indicator (pre ++ s) = true := by
  unfold has_signature_indicator at h ⊢
  simp only [List.any_eq_true] at h ⊢
  obtain ⟨m, hm, hsub⟩ := h
  exact ⟨m, hm, hasSubstr_append_left _ _ _ hsub⟩

theorem collectUpto_subset (stop : String) (l : List String) :
    ∀ x ∈ collectUpto stop l, x ∈ l := by
  induction l with
  | nil => simp [collectUpto]
  | cons h t ih =>
    intro x hx
    by_cases he : h = stop
    · simp [collectUpto, he] at hx
      simp [hx, he]
    · simp [collectUpto, he] at hx
      rcases hx with hx | hx
      · simp [hx]
      · exact List.mem_cons_of_mem _ (ih x hx)

/-! ### C10: lightweight tags -/

/-- C10: for every lightweight tag (no annotated tag object),
`extract_tag_signature` returns none and performs no external tool
invocation at all. -/
theorem lightweight_tag_no_subprocess (t : TagRefM)
    (tool : String → String × String) (h : t.hasTagObject = false) :
    extract_tag_signature t tool = (none, []) := by
  simp [extract_tag_signature, h]

theorem lightweight_tag_no_subprocess_witness :
    (TagRefM.mk "v0.1" false).hasTagObject = false ∧
      extract_tag_signature ⟨"v0.1", false⟩ (fun _ => ("", "")) = (none, []) :=
  ⟨rfl, lightweight_tag_no_subprocess ⟨"v0.1", false⟩ (fun _ => ("", "")) rfl⟩

/-! ### C8: merge analyzer fail-soft behaviour -/

/-- C8: `compute_merged_commits` returns the empty set for commits with
fewer than two parents, and returns the empty set when either ancestry walk
raises; being a total function of its inputs it never propagates an
exception to the caller. -/
theorem compute_merged_commits_fail_soft (parents : List String)
    (mergeSha : String) (iter : String → Except String (List String)) :
    (parents.length < 2 → compute_merged_commits parents mergeSha iter = ∅) ∧
    (∀ p1 p2 rest, parents = p1 :: p2 :: rest →
      ((∃ e, iter p1 = .error e) ∨ (∃ e, iter p2 = .error e)) →
      compute_merged_commits parents mergeSha iter = ∅) := by
  constructor
  · intro h
    match parents, h with
    | [], _ => rfl
    | [_], _ => rfl
  · rintro p1 p2 rest rfl h
    rcases h with ⟨e, he⟩ | ⟨e, he⟩
    · cases h2 : iter p2 <;> simp [compute_merged_commits, h2, he]
    · simp [compute_merged_commits, he]

theorem compute_merged_commits_fail_soft_witness :
    ((["only-parent"] : List String).length < 2 ∧
      compute_merged_commits ["only-parent"] "m" (fun _ => .ok []) = ∅) ∧
    compute_merged_commits ["p1", "p2"] "m" (fun _ => .error "boom") = ∅ :=
  ⟨⟨by decide, (compute_merged_commits_fail_soft ["only-parent"] "m"
      (fun _ => .ok [])).1 (by decide)⟩,
    (compute_merged_commits_fail_soft ["p1", "p2"] "m"
      (fun _ => .error "boom")).2 "p1" "p2" [] rfl (Or.inl ⟨"boom", rfl⟩)⟩

/-! ### C4: merge ancestry -/

/-- A history where the second parent P2 has parents P1 and B, with the walk
from P2 visiting P1 before B; B is not reachable from P1. -/
def iterCex : String → Except String (List String) := fun s =>
  if s = "P2" then .ok ["P2", "P1", "B"]
  else if s = "P1" then .ok ["P1"] else .ok []

/-- C4 counterexample: the second-parent walk stops at the first parent, so
the commit B, reachable from the second parent but not from the first, is
missing from the result; the claimed set difference would contain it. -/
theorem compute_merged_commits_not_reachability_diff :
    compute_merged_commits ["P1", "P2"] "M" iterCex = {"P2"} ∧
    (["P2", "P1", "B"].toFinset \ ["P1"].toFinset).erase "M" = {"P2", "B"} ∧
    ({"P2"} : Finset String) ≠ {"P2", "B"} := by decide

/-- C4 (amended): the result is the set of hashes visited by the
second-parent walk up to and including the first occurrence of the first
parent, minus the hashes reachable from the first parent, minus the merge's
own hash; in particular, when the second parent contributes exactly one
commit not reachable from the first parent and that commit is visited
before the walk stops, the result is exactly that commit's hash. -/
theorem compute_merged_commits_characterization
    (p1 p2 : String) (rest : List String) (mergeSha : String)
    (iter : String → Except String (List String)) (l1 l2 : List String)
    (h1 : iter p1 = .ok l1) (h2 : iter p2 = .ok l2) :
    compute_merged_commits (p1 :: p2 :: rest) mergeSha iter
      = ((collectUpto p1 l2).toFinset \ l1.toFinset).erase mergeSha ∧
    (∀ x : String,
      (l2.toFinset \ l1.toFinset).erase mergeSha = {x} →
      x ∈ collectUpto p1 l2 →
      compute_merged_commits (p1 :: p2 :: rest) mergeSha iter = {x}) := by
  have hmain : compute_merged_commits (p1 :: p2 :: rest) mergeSha iter
      = ((collectUpto p1 l2).toFinset \ l1.toFinset).erase mergeSha := by
    simp [compute_merged_commits, h1, h2]
  refine ⟨hmain, ?_⟩
  intro x hsing hx
  rw [hmain]
  apply Finset.Subset.antisymm
  · intro y hy
    rcases Finset.mem_erase.mp hy with ⟨hne, hmem⟩
    rcases Finset.mem_sdiff.mp hmem with ⟨hin, hnin⟩
    have : y ∈ (l2.toFinset \ l1.toFinset).erase mergeSha :=
      Finset.mem_erase.mpr ⟨hne, Finset.mem_sdiff.mpr
        ⟨List.mem_toFinset.mpr
          (collectUpto_subset _ _ _ (List.mem_toFinset.mp hin)), hnin⟩⟩
    rwa [hsing] at this
  · intro y hy
    rw [Finset.mem_singleton] at hy
    subst hy
    have hxm : y ∈ (l2.toFinset \ l1.toFinset).erase mergeSha := by
      rw [hsing]; exact Finset.mem_singleton_self y
    rcases Finset.mem_erase.mp hxm with ⟨hne, hmem⟩
    rcases Finset.mem_sdiff.mp hmem with ⟨_, hnin⟩
    exact Finset.mem_erase.mpr
      ⟨hne, Finset.mem_sdiff.mpr ⟨List.mem_toFinset.mpr hx, hnin⟩⟩

/-- A synthetic history for the witness: P2 contributes exactly itself. -/
def iterSyn : String → Except String (List String) := fun s =>
  if s = "P2" then .ok ["P2", "P1", "R"] else .ok ["P1", "R"]

theorem compute_merged_commits_characterization_witness :
    compute_merged_commits ["P1", "P2"] "M" iterSyn
      = ((collectUpto "P1" ["P2", "P1", "R"]).toFinset
          \ (["P1", "R"] : List String).toFinset).erase "M" ∧
    compute_merged_commits ["P1", "P2"] "M" iterSyn = {"P2"} :=
  ⟨(compute_merged_commits_characterization "P1" "P2" [] "M" iterSyn
      ["P1", "R"] ["P2", "P1", "R"] (by simp [iterSyn]) (by simp [iterSyn])).1,
    (compute_merged_commits_characterization "P1" "P2" [] "M" iterSyn
      ["P1", "R"] ["P2", "P1", "R"] (by simp [iterSyn]) (by simp [iterSyn])).2 "P2"
      (by decide) (by decide)⟩

/-! ### C6: fingerprint parsing on literal text -/

/-- Sample tool output embedding the specification's literal fingerprint
line. -/
def c6Sample : String :=
  "gpg: Good signature from Test User\nPrimary key fingerprint: 1234 5678 90AB CDEF 1234  5678 90AB CDEF 1234 5678\n"

/-- Tool output containing the sample line, preceded by a different
fingerprint line. -/
def c6Shadowed : String :=
  "Primary key fingerprint: AAAA BBBB CCCC DDDD EEEE FFFF 0000 1111 2222 3333\nPrimary key fingerprint: 1234 5678 90AB CDEF 1234  5678 90AB CDEF 1234 5678"

/-- C6 counterexample: `re.search` returns the leftmost match, so an output
that contains the sample line but an earlier fingerprint line yields the
earlier fingerprint, not the sample's. -/
theorem parse_fingerprint_first_match_wins :
    hasSubstr c6Shadowed
      "Primary key fingerprint: 1234 5678 90AB CDEF 1234  5678 90AB CDEF 1234 5678" = true ∧
    parse_gpg_fingerprint c6Shadowed
      = some "AAAABBBBCCCCDDDDEEEEFFFF0000111122223333" ∧
    parse_gpg_fingerprint c6Shadowed
      ≠ some "1234567890ABCDEF1234567890ABCDEF12345678" := by decide

/-- C6 (amended): for the literal sample text containing the fingerprint
line, extraction returns the concatenated upper-cased fingerprint; and for
any output containing none of the fixed signature markers, signature
extraction returns none. -/
theorem signature_parsing_on_sample_text :
    parse_gpg_fingerprint c6Sample
      = some "1234567890ABCDEF1234567890ABCDEF12345678" ∧
    ∀ output : String, has_signature_indicator output = false →
      detect_signature output = none := by
  constructor
  · decide
  · intro out h
    simp [detect_signature, h]

theorem signature_parsing_on_sample_text_witness :
    has_signature_indicator "tree 0123abcd\nauthor Dev" = false ∧
      detect_signature "tree 0123abcd\nauthor Dev" = none :=
  ⟨by decide, signature_parsing_on_sample_text.2 "tree 0123abcd\nauthor Dev" (by decide)⟩

/-! ### C7: which streams the extractors inspect -/

def c7Stdout : String := "commit deadbeef\nAuthor: Dev <dev@example.org>"

def c7Stderr : String :=
  "gpg: Signature made Fri\ngpg: using RSA key 1234567890ABCDEF1234567890ABCDEF12345678\ngpg: Good signature"

/-- C7 counterexample: with signature markers only on the error stream, the
commit extractor finds the signature, but the annotated-tag extractor, which
decodes only the standard output, returns none. -/
theorem tag_extraction_ignores_stderr :
    has_signature_indicator c7Stdout = false ∧
    has_signature_indicator c7Stderr = true ∧
    extract_commit_signature c7Stdout c7Stderr
      = some ⟨"1234567890ABCDEF1234567890ABCDEF12345678", "gpg", none⟩ ∧
    extract_tag_signature ⟨"v1.0", true⟩ (fun _ => (c7Stdout, c7Stderr))
      = (none, ["v1.0"]) := by decide

/-- C7 (amended): commit signature extraction operates on the combined
stdout+stderr text — a marker appearing only on the error stream still
triggers detection, and parsing runs over the combined text — while
annotated-tag extraction inspects the standard output only, so whenever the
tag tool's stdout carries no marker the tag is reported unsigned. -/
theorem commit_combines_streams_tag_reads_stdout :
    (∀ out err : String, has_signature_indicator err = true →
      extract_commit_signature out err
        = (parse_gpg_fingerprint (out ++ "\n" ++ err)).map
            (fun fp => ⟨fp, "gpg", none⟩)) ∧
    (∀ (t : TagRefM) (tool : String → String × String),
      t.hasTagObject = true → has_signature_indicator (tool t.name).1 = false →
      (extract_tag_signature t tool).1 = none) := by
  constructor
  · intro out err h
    have hcomb : has_signature_indicator (out ++ "\n" ++ err) = true :=
      indicator_append_left (out ++ "\n") err h
    cases hp : parse_gpg_fingerprint (out ++ "\n" ++ err) <;>
      simp [extract_commit_signature, detect_signature, hcomb, hp]
  · intro t tool ht h
    simp [extract_tag_signature, ht, detect_signature, h]

theorem commit_combines_streams_tag_reads_stdout_witness :
    (has_signature_indicator "gpg: Good signature" = true ∧
      extract_commit_signature "out" "gpg: Good signature"
        = (parse_gpg_fingerprint ("out" ++ "\n" ++ "gpg: Good signature")).map
            (fun fp => ⟨fp, "gpg", none⟩)) ∧
    ((TagRefM.mk "v2" true).hasTagObject = true ∧
      has_signature_indicator
        ((fun _ : String => ("clean", "gpg: Good signature")) "v2").1 = false ∧
      (extract_tag_signature ⟨"v2", true⟩
        (fun _ => ("clean", "gpg: Good signature"))).1 = none) :=
  ⟨⟨by decide, commit_combines_streams_tag_reads_stdout.1 "out"
      "gpg: Good signature" (by decide)⟩,
    ⟨rfl, by decide, commit_combines_streams_tag_reads_stdout.2
      ⟨"v2", true⟩ (fun _ => ("clean", "gpg: Good signature")) rfl (by decide)⟩⟩

/-! ### C5: file change extraction -/

theorem plus_not_minus (l : List Char) (h : List.isPrefixOf ['+'] l = true) :
    List.isPrefixOf ['-'] l = false := by
  cases l with
  | nil =>
    exact absurd h (by decide)
  | cons c t =>
    change ('+' == c && List.isPrefixOf [] t) = true at h
    change ('-' == c && List.isPrefixOf [] t) = false
    simp only [Bool.and_eq_true, beq_iff_eq] at h
    simp [← h.1]

theorem countFold (lines : List (List Char)) : ∀ a b : Nat,
    lines.foldl
      (fun acc line =>
        if addLineP line then (acc.1 + 1, acc.2)
        else if delLineP line then (acc.1, acc.2 + 1)
        else acc) (a, b)
      = (a + (lines.filter addLineP).length,
         b + (lines.filter delLineP).length) := by
  induction lines with
  | nil => intro a b; simp
  | cons l t ih =>
    intro a b
    by_cases h1 : addLineP l = true
    · have hplus : List.isPrefixOf ['+'] l = true :=
        ((Bool.and_eq_true _ _).mp h1).1
      have h2 : delLineP l = false := by
        unfold delLineP
        rw [plus_not_minus l hplus]
        rfl
      simp [h1, h2, ih]
      omega
    · rw [Bool.not_eq_true] at h1
      by_cases h2 : delLineP l = true
      · simp [h1, h2, ih]
        omega
      · rw [Bool.not_eq_true] at h2
        simp [h1, h2, ih]

theorem countDiffLines_eq (t : String) :
    countDiffLines t = (claimedAdd t, claimedDel t) := by
  unfold countDiffLines claimedAdd claimedDel
  rw [countFold]
  simp

theorem processDiff_counts (sens : List String) (d : GitDiff) :
    (processDiff sens d).add = claimedAdd d.diffText ∧
    (processDiff sens d).del = claimedDel d.diffText := by
  by_cases he : d.diffText.data.isEmpty = true
  · have ht : d.diffText.data = [] := List.isEmpty_iff.mp he
    unfold processDiff claimedAdd claimedDel
    rw [ht]
    simp [he, ht]
    exact ⟨by decide, by decide⟩
  · rw [Bool.not_eq_true] at he
    simp [processDiff, he, countDiffLines_eq]

/-- C5: the file-change extractor diffs against the first parent (the empty
tree for a parentless root), and for every diff record returns status A for
an added file, D for a deleted one, R (with the rename-source path when it
differs from the selected path) for a rename, M otherwise, and added/deleted
counts equal to the number of `+` / `-` lines of the unified diff excluding
the `+++` / `---` lines. -/
theorem compute_file_changes_spec (parents : List String)
    (diffOf : Option String → List GitDiff) (sens : List String) :
    compute_file_changes parents diffOf sens
      = (diffOf parents.head?).map (processDiff sens) ∧
    ∀ d : GitDiff,
      (processDiff sens d).status
        = (if d.new_file then "A" else if d.deleted_file then "D"
           else if d.renamed_file then "R" else "M") ∧
      (processDiff sens d).add = claimedAdd d.diffText ∧
      (processDiff sens d).del = claimedDel d.diffText ∧
      (d.renamed_file = false → (processDiff sens d).rename_from = none) ∧
      (d.renamed_file = true → d.a_path ≠ truthyOr d.b_path d.a_path →
        (processDiff sens d).rename_from = d.a_path) := by
  constructor
  · cases parents <;> rfl
  · intro d
    refine ⟨rfl, (processDiff_counts sens d).1, (processDiff_counts sens d).2,
      ?_, ?_⟩
    · intro h
      simp [processDiff, h]
    · intro h hne
      simp [processDiff, h, hne]

/-- A renamed file with one added and one removed line, under a sensitive
path. -/
def c5RenameDiff : GitDiff :=
  { new_file := false, deleted_file := false, renamed_file := true,
    a_path := some "src/old.cpp", b_path := some "src/policy/new.cpp",
    diffText := "--- a/src/old.cpp\n+++ b/src/policy/new.cpp\n+added line\n-removed line\n context" }

theorem compute_file_changes_spec_witness :
    (c5RenameDiff.renamed_file = true ∧
      c5RenameDiff.a_path ≠ truthyOr c5RenameDiff.b_path c5RenameDiff.a_path ∧
      (processDiff SENSITIVE_PATHS c5RenameDiff).rename_from = some "src/old.cpp") ∧
    (processDiff SENSITIVE_PATHS c5RenameDiff).add = claimedAdd c5RenameDiff.diffText :=
  ⟨⟨rfl, by decide, by
      have h := (compute_file_changes_spec [] (fun _ => [c5RenameDiff])
        SENSITIVE_PATHS).2 c5RenameDiff
      exact h.2.2.2.2 rfl (by decide)⟩,
    ((compute_file_changes_spec [] (fun _ => [c5RenameDiff])
      SENSITIVE_PATHS).2 c5RenameDiff).2.1⟩

/-! ### C2: commit discovery -/

theorem takeWhile_cons_mem (existing : Finset String) (h : String)
    (t : List String) (hex : h ∈ existing) :
    (h :: t).takeWhile (fun x => decide (x ∉ existing)) = [] := by
  simp [List.takeWhile_cons, hex]

theorem takeWhile_cons_not_mem (existing : Finset String) (h : String)
    (t : List String) (hex : h ∉ existing) :
    (h :: t).takeWhile (fun x => decide (x ∉ existing))
      = h :: t.takeWhile (fun x => decide (x ∉ existing)) := by
  simp [List.takeWhile_cons, hex]

theorem walkRef_spec (existing : Finset String) (s : List String) :
    ∀ (seen : Finset String) (acc : List String),
    (∀ x, x ∈ seen ↔ x ∈ acc) → acc.Nodup →
    ((∀ x, x ∈ (walkRef existing s seen acc).1 ↔
        x ∈ (walkRef existing s seen acc).2) ∧
     (walkRef existing s seen acc).2.Nodup ∧
     (∀ x, x ∈ (walkRef existing s seen acc).2 ↔
        x ∈ acc ∨ x ∈ s.takeWhile (fun h => decide (h ∉ existing)))) := by
  induction s with
  | nil =>
    intro seen acc inv nd
    exact ⟨inv, nd, by simp [walkRef]⟩
  | cons h t ih =>
    intro seen acc inv nd
    by_cases hex : h ∈ existing
    · simp only [walkRef, if_pos hex]
      refine ⟨inv, nd, ?_⟩
      intro x
      rw [takeWhile_cons_mem existing h t hex]
      simp
    · have htw := takeWhile_cons_not_mem existing h t hex
      by_cases hseen : h ∈ seen
      · simp only [walkRef, if_neg hex, if_pos hseen]
        obtain ⟨c1, c2, c3⟩ := ih seen acc inv nd
        refine ⟨c1, c2, ?_⟩
        intro x
        rw [c3 x, htw, List.mem_cons]
        have hacc : h ∈ acc := (inv h).mp hseen
        constructor
        · rintro (hx | hx)
          · exact Or.inl hx
          · exact Or.inr (Or.inr hx)
        · rintro (hx | rfl | hx)
          · exact Or.inl hx
          · exact Or.inl hacc
          · exact Or.inr hx
      · simp only [walkRef, if_neg hex, if_neg hseen]
        have inv' : ∀ x, x ∈ insert h seen ↔ x ∈ acc ++ [h] := by
          intro x
          simp only [Finset.mem_insert, inv x, List.mem_append,
            List.mem_singleton]
          tauto
        have hnacc : h ∉ acc := fun hc => hseen ((inv h).mpr hc)
        have nd' : (acc ++ [h]).Nodup := by
          simp [List.nodup_append, nd, hnacc]
        obtain ⟨c1, c2, c3⟩ := ih (insert h seen) (acc ++ [h]) inv' nd'
        refine ⟨c1, c2, ?_⟩
        intro x
        rw [c3 x, htw, List.mem_cons, List.mem_append, List.mem_singleton]
        constructor
        · rintro ((hx | rfl) | hx)
          · exact Or.inl hx
          · exact Or.inr (Or.inl rfl)
          · exact Or.inr (Or.inr hx)
        · rintro (hx | rfl | hx)
          · exact Or.inl (Or.inl hx)
          · exact Or.inl (Or.inr rfl)
          · exact Or.inr hx

theorem discoverAux_spec (existing : Finset String) :
    ∀ (rs : List (List String)) (seen : Finset String) (acc : List String),
    (∀ x, x ∈ seen ↔ x ∈ acc) → acc.Nodup →
    ((rs.foldl (fun p s => walkRef existing s p.1 p.2) (seen, acc)).2.Nodup ∧
     (∀ x, x ∈ (rs.foldl (fun p s => walkRef existing s p.1 p.2) (seen, acc)).2 ↔
        x ∈ acc ∨ ∃ s ∈ rs, x ∈ s.takeWhile (fun h => decide (h ∉ existing)))) := by
  intro rs
  induction rs with
  | nil =>
    intro seen acc inv nd
    exact ⟨nd, by simp⟩
  | cons s rs ih =>
    intro seen acc inv nd
    obtain ⟨w1, w2, w3⟩ := walkRef_spec existing s seen acc inv nd
    obtain ⟨c2, c3⟩ := ih (walkRef existing s seen acc).1
      (walkRef existing s seen acc).2 w1 w2
    refine ⟨c2, ?_⟩
    intro x
    refine Iff.trans (c3 x) ?_
    rw [w3 x]
    simp only [List.mem_cons]
    constructor
    · rintro ((hx | hx) | ⟨s1, hs1, hx⟩)
      · exact Or.inl hx
      · exact Or.inr ⟨s, Or.inl rfl, hx⟩
      · exact Or.inr ⟨s1, Or.inr hs1, hx⟩
    · rintro (hx | ⟨s1, hs1 | hs1, hx⟩)
      · exact Or.inl (Or.inl hx)
      · subst hs1
        exact Or.inl (Or.inr hx)
      · exact Or.inr ⟨s1, hs1, hx⟩

theorem ancestorClosed_tail (existing : Finset String) (h : String)
    (t : List String) (hc : ancestorClosed existing (h :: t)) :
    ancestorClosed existing t := by
  intro i j hij hi
  have h1 : (h :: t).get ⟨i.val + 1, Nat.succ_lt_succ i.isLt⟩ ∈ existing := by
    rw [List.get_cons_succ]
    exact hi
  have h2 := hc ⟨i.val + 1, Nat.succ_lt_succ i.isLt⟩
    ⟨j.val + 1, Nat.succ_lt_succ j.isLt⟩ (Nat.succ_le_succ hij) h1
  rw [List.get_cons_succ] at h2
  exact h2

theorem ancestorClosed_head_mem (existing : Finset String) (h : String)
    (t : List String) (hc : ancestorClosed existing (h :: t))
    (hh : h ∈ existing) : ∀ y ∈ t, y ∈ existing := by
  intro y hy
  obtain ⟨j, hj⟩ := List.mem_iff_get.mp hy
  have h0 : (h :: t).get ⟨0, Nat.succ_pos _⟩ ∈ existing := hh
  have h2 := hc ⟨0, Nat.succ_pos _⟩ ⟨j.val + 1, Nat.succ_lt_succ j.isLt⟩
    (Nat.zero_le _) h0
  rw [List.get_cons_succ] at h2
  rw [show t.get ⟨j.val, j.isLt⟩ = y from hj] at h2
  exact h2

theorem mem_takeWhile_of_closed (existing : Finset String) :
    ∀ s : List String, ancestorClosed existing s →
    ∀ x, x ∈ s.takeWhile (fun h => decide (h ∉ existing)) ↔
      x ∈ s ∧ x ∉ existing := by
  intro s
  induction s with
  | nil =>
    intro _ x
    simp
  | cons h t ih =>
    intro hc x
    by_cases hex : h ∈ existing
    · rw [takeWhile_cons_mem existing h t hex]
      have hall := ancestorClosed_head_mem existing h t hc hex
      constructor
      · intro hx
        simp at hx
      · rintro ⟨hx, hnx⟩
        rcases List.mem_cons.mp hx with rfl | hx
        · exact absurd hex hnx
        · exact absurd (hall x hx) hnx
    · rw [takeWhile_cons_not_mem existing h t hex]
      constructor
      · intro hx
        rcases List.mem_cons.mp hx with rfl | hx
        · exact ⟨List.mem_cons_self _ _, hex⟩
        · have hh := (ih (ancestorClosed_tail existing h t hc) x).mp hx
          exact ⟨List.mem_cons_of_mem _ hh.1, hh.2⟩
      · rintro ⟨hx, hnx⟩
        rcases List.mem_cons.mp hx with rfl | hx
        · exact List.mem_cons_self _ _
        · exact List.mem_cons_of_mem _
            ((ih (ancestorClosed_tail existing h t hc) x).mpr ⟨hx, hnx⟩)

/-- C2 counterexample: with persisted set {b} where b's unpersisted ancestor
c sits behind it on the ref's walk, the walk from the tip a stops at b, so
c — reachable from the ref and not persisted — is not returned. -/
theorem discovery_misses_hidden_ancestors :
    process_commits_new_schema {"b"} [["a", "b", "c"]] ["a", "b", "c"] = ["a"] ∧
    ((∃ s ∈ [["a", "b", "c"]], "c" ∈ s) ∧ "c" ∉ ({"b"} : Finset String)) ∧
    "c" ∉ process_commits_new_schema {"b"} [["a", "b", "c"]] ["a", "b", "c"] := by
  decide

/-- C2 (amended): for every persisted set that is ancestor-closed along each
ref's iteration sequence (the specification's "ancestors are assumed already
imported"), with the full log enumerating each commit once and covering only
commits reachable from the refs, discovery returns exactly the commits
reachable from some ref whose hashes are not persisted, each exactly once
even when reachable from several refs; each per-ref walk stops at the first
persisted commit. -/
theorem process_commits_new_schema_exact (existing : Finset String)
    (refSeqs : List (List String)) (logSeq : List String)
    (hclosed : ∀ s ∈ refSeqs, ancestorClosed existing s)
    (hlognd : logSeq.Nodup)
    (hlogsub : ∀ x ∈ logSeq, ∃ s ∈ refSeqs, x ∈ s) :
    (process_commits_new_schema existing refSeqs logSeq).Nodup ∧
    ∀ x, x ∈ process_commits_new_schema existing refSeqs logSeq ↔
      ((∃ s ∈ refSeqs, x ∈ s) ∧ x ∉ existing) := by
  obtain ⟨d2, d3⟩ := discoverAux_spec existing refSeqs ∅ []
    (by simp) List.nodup_nil
  unfold process_commits_new_schema
  by_cases hemp : (discoverFromRefs existing refSeqs).2.isEmpty = true
  · rw [if_pos hemp]
    have hempty : (discoverFromRefs existing refSeqs).2 = [] :=
      List.isEmpty_iff.mp hemp
    have hsub : ∀ s ∈ refSeqs, ∀ x ∈ s, x ∈ existing := by
      intro s hs x hx
      by_contra hnx
      have hmem : x ∈ (discoverFromRefs existing refSeqs).2 :=
        (d3 x).mpr (Or.inr ⟨s, hs,
          (mem_takeWhile_of_closed existing s (hclosed s hs) x).mpr ⟨hx, hnx⟩⟩)
      rw [hempty] at hmem
      simp at hmem
    refine ⟨hlognd.filter _, ?_⟩
    intro x
    simp only [List.mem_filter, decide_eq_true_eq]
    constructor
    · rintro ⟨hx, hnx⟩
      exact ⟨hlogsub x hx, hnx⟩
    · rintro ⟨⟨s, hs, hx⟩, hnx⟩
      exact absurd (hsub s hs x hx) hnx
  · rw [if_neg hemp]
    refine ⟨d2, ?_⟩
    intro x
    have hd := d3 x
    simp only [List.not_mem_nil, false_or] at hd
    refine Iff.trans hd ?_
    constructor
    · rintro ⟨s, hs, hx⟩
      have hh := (mem_takeWhile_of_closed existing s (hclosed s hs) x).mp hx
      exact ⟨⟨s, hs, hh.1⟩, hh.2⟩
    · rintro ⟨⟨s, hs, hx⟩, hnx⟩
      exact ⟨s, hs,
        (mem_takeWhile_of_closed existing s (hclosed s hs) x).mpr ⟨hx, hnx⟩⟩

theorem process_commits_new_schema_exact_witness :
    (process_commits_new_schema {"b", "c"} [["a", "b", "c"], ["a", "b", "c"]]
      ["a", "b", "c"]).Nodup ∧
    ("a" ∈ process_commits_new_schema {"b", "c"} [["a", "b", "c"], ["a", "b", "c"]]
        ["a", "b", "c"] ↔
      ((∃ s ∈ [["a", "b", "c"], ["a", "b", "c"]], "a" ∈ s) ∧
        "a" ∉ ({"b", "c"} : Finset String))) :=
  ⟨(process_commits_new_schema_exact {"b", "c"}
      [["a", "b", "c"], ["a", "b", "c"]] ["a", "b", "c"]
      (by decide) (by decide) (by decide)).1,
    (process_commits_new_schema_exact {"b", "c"}
      [["a", "b", "c"], ["a", "b", "c"]] ["a", "b", "c"]
      (by decide) (by decide) (by decide)).2 "a"⟩

/-! ### C1: idempotence of the batch commit upsert

Every atomic step of the compiled row either sets a cell to a value
determined by the row alone (`MERGE ... ON CREATE SET ... ON MATCH SET` with
all properties from the row, and edge/identity merges) or creates a bare
node keeping what is already there (`MERGE (p:Commit {commit_hash: ...})`
for parents).  Per cell the composite effect of a whole update list is
either "keep", "create bare" or "set to a fixed value" — each idempotent —
so replaying the same row list is the identity on the reached state. -/

/-- The effect of an update list on one Commit-node cell. -/
inductive CommitEff where
  | keep
  | bare
  | strong (p : CommitProps)
deriving DecidableEq

def applyCommitEff : CommitEff → Option (Option CommitProps) → Option (Option CommitProps)
  | .keep, v => v
  | .bare, v => some (v.getD none)
  | .strong p, _ => some (some p)

/-- `compCommitEff later earlier`: perform `earlier`, then `later`. -/
def compCommitEff : CommitEff → CommitEff → CommitEff
  | .keep, e => e
  | .bare, .strong p => .strong p
  | .bare, _ => .bare
  | .strong p, _ => .strong p

def commitEffOf (u : GraphUpd) (x : String) : CommitEff :=
  match u with
  | .setCommitProps sha p => if x = sha then .strong p else .keep
  | .mergeBareCommit sha => if x = sha then .bare else .keep
  | _ => .keep

def commitsEff : List GraphUpd → String → CommitEff
  | [], _ => .keep
  | u :: t, x => compCommitEff (commitsEff t x) (commitEffOf u x)

theorem applyCommitEff_comp (e2 e1 : CommitEff) (v : Option (Option CommitProps)) :
    applyCommitEff (compCommitEff e2 e1) v
      = applyCommitEff e2 (applyCommitEff e1 v) := by
  cases e2 <;> cases e1 <;> simp [compCommitEff, applyCommitEff]

theorem applyCommitEff_idem (e : CommitEff) (v : Option (Option CommitProps)) :
    applyCommitEff e (applyCommitEff e v) = applyCommitEff e v := by
  cases e <;> simp [applyCommitEff]

theorem applyUpd_commits (s : GraphState) (u : GraphUpd) (x : String) :
    (applyUpd s u).commits x = applyCommitEff (commitEffOf u x) (s.commits x) := by
  cases u with
  | setCommitProps sha p =>
    by_cases hx : x = sha <;> simp [applyUpd, commitEffOf, applyCommitEff, hx]
  | mergeBareCommit sha =>
    by_cases hx : x = sha <;> simp [applyUpd, commitEffOf, applyCommitEff, hx]
  | mergeIdentity k => rfl
  | setAuthored k sha ts => rfl
  | setCommitted k sha ts => rfl
  | mergeCoAuthored k sha => rfl
  | mergeHasParent a b i => rfl

theorem runUpds_commits (L : List GraphUpd) :
    ∀ (s : GraphState) (x : String),
    (runUpds s L).commits x = applyCommitEff (commitsEff L x) (s.commits x) := by
  induction L with
  | nil => intro s x; rfl
  | cons u t ih =>
    intro s x
    show (runUpds (applyUpd s u) t).commits x = _
    rw [ih (applyUpd s u) x, applyUpd_commits,
      show commitsEff (u :: t) x
        = compCommitEff (commitsEff t x) (commitEffOf u x) from rfl,
      applyCommitEff_comp]

/-- Whether one update merges the Identity node `k`. -/
def identTouch (u : GraphUpd) (k : IdentityKey) : Bool :=
  match u with
  | .mergeIdentity k2 => k = k2
  | _ => false

def identsTouched : List GraphUpd → IdentityKey → Bool
  | [], _ => false
  | u :: t, k => identTouch u k || identsTouched t k

theorem applyUpd_identities (s : GraphState) (u : GraphUpd) (k : IdentityKey) :
    (applyUpd s u).identities k = (s.identities k || identTouch u k) := by
  cases u with
  | mergeIdentity k2 =>
    by_cases hk : k = k2 <;> simp [applyUpd, identTouch, hk]
  | setCommitProps sha p => simp [applyUpd, identTouch]
  | mergeBareCommit sha => simp [applyUpd, identTouch]
  | setAuthored k2 sha ts => simp [applyUpd, identTouch]
  | setCommitted k2 sha ts => simp [applyUpd, identTouch]
  | mergeCoAuthored k2 sha => simp [applyUpd, identTouch]
  | mergeHasParent a b i => simp [applyUpd, identTouch]

theorem runUpds_identities (L : List GraphUpd) :
    ∀ (s : GraphState) (k : IdentityKey),
    (runUpds s L).identities k = (s.identities k || identsTouched L k) := by
  induction L with
  | nil => intro s k; simp [runUpds, identsTouched]
  | cons u t ih =>
    intro s k
    show (runUpds (applyUpd s u) t).identities k = _
    rw [ih (applyUpd s u) k, applyUpd_identities,
      show identsTouched (u :: t) k
        = (identTouch u k || identsTouched t k) from rfl,
      Bool.or_assoc]

/-- Whether one update merges the CO_AUTHORED edge `(k, c)`. -/
def coAuthTouch (u : GraphUpd) (k : IdentityKey) (c : String) : Bool :=
  match u with
  | .mergeCoAuthored k2 c2 => (k, c) = (k2, c2)
  | _ => false

def coAuthsTouched : List GraphUpd → IdentityKey → String → Bool
  | [], _, _ => false
  | u :: t, k, c => coAuthTouch u k c || coAuthsTouched t k c

theorem applyUpd_coAuthored (s : GraphState) (u : GraphUpd) (k : IdentityKey)
    (c : String) :
    (applyUpd s u).coAuthored k c = (s.coAuthored k c || coAuthTouch u k c) := by
  cases u with
  | mergeCoAuthored k2 c2 =>
    by_cases hk : (k, c) = (k2, c2)
    · rw [Prod.mk.injEq] at hk
      obtain ⟨rfl, rfl⟩ := hk
      simp [applyUpd, coAuthTouch]
    · rw [Prod.mk.injEq] at hk
      simp [applyUpd, coAuthTouch, Prod.mk.injEq, hk]
  | setCommitProps sha p => simp [applyUpd, coAuthTouch]
  | mergeBareCommit sha => simp [applyUpd, coAuthTouch]
  | setAuthored k2 sha ts => simp [applyUpd, coAuthTouch]
  | setCommitted k2 sha ts => simp [applyUpd, coAuthTouch]
  | mergeIdentity k2 => simp [applyUpd, coAuthTouch]
  | mergeHasParent a b i => simp [applyUpd, coAuthTouch]

theorem runUpds_coAuthored (L : List GraphUpd) :
    ∀ (s : GraphState) (k : IdentityKey) (c : String),
    (runUpds s L).coAuthored k c
      = (s.coAuthored k c || coAuthsTouched L k c) := by
  induction L with
  | nil => intro s k c; simp [runUpds, coAuthsTouched]
  | cons u t ih =>
    intro s k c
    show (runUpds (applyUpd s u) t).coAuthored k c = _
    rw [ih (applyUpd s u) k c, applyUpd_coAuthored,
      show coAuthsTouched (u :: t) k c
        = (coAuthTouch u k c || coAuthsTouched t k c) from rfl,
      Bool.or_assoc]

/-- Whether one update merges the HAS_PARENT edge `(a, b, i)`. -/
def parentTouch (u : GraphUpd) (a b : String) (i : Nat) : Bool :=
  match u with
  | .mergeHasParent a2 b2 i2 => (a, b, i) = (a2, b2, i2)
  | _ => false

def parentsTouched : List GraphUpd → String → String → Nat → Bool
  | [], _, _, _ => false
  | u :: t, a, b, i => parentTouch u a b i || parentsTouched t a b i

theorem applyUpd_hasParent (s : GraphState) (u : GraphUpd) (a b : String)
    (i : Nat) :
    (applyUpd s u).hasParent a b i
      = (s.hasParent a b i || parentTouch u a b i) := by
  cases u with
  | mergeHasParent a2 b2 i2 =>
    by_cases hk : (a, b, i) = (a2, b2, i2)
    · rw [Prod.mk.injEq, Prod.mk.injEq] at hk
      obtain ⟨rfl, rfl, rfl⟩ := hk
      simp [applyUpd, parentTouch]
    · rw [Prod.mk.injEq, Prod.mk.injEq] at hk
      simp [applyUpd, parentTouch, Prod.mk.injEq, hk]
  | setCommitProps sha p => simp [applyUpd, parentTouch]
  | mergeBareCommit sha => simp [applyUpd, parentTouch]
  | setAuthored k2 sha ts => simp [applyUpd, parentTouch]
  | setCommitted k2 sha ts => simp [applyUpd, parentTouch]
  | mergeIdentity k2 => simp [applyUpd, parentTouch]
  | mergeCoAuthored k2 sha => simp [applyUpd, parentTouch]

theorem runUpds_hasParent (L : List GraphUpd) :
    ∀ (s : GraphState) (a b : String) (i : Nat),
    (runUpds s L).hasParent a b i
      = (s.hasParent a b i || parentsTouched L a b i) := by
  induction L with
  | nil => intro s a b i; simp [runUpds, parentsTouched]
  | cons u t ih =>
    intro s a b i
    show (runUpds (applyUpd s u) t).hasParent a b i = _
    rw [ih (applyUpd s u) a b i, applyUpd_hasParent,
      show parentsTouched (u :: t) a b i
        = (parentTouch u a b i || parentsTouched t a b i) from rfl,
      Bool.or_assoc]

/-- The value one update writes to the AUTHORED edge `(k, c)`, if any. -/
def authoredWr (u : GraphUpd) (k : IdentityKey) (c : String) : Option Int :=
  match u with
  | .setAuthored k2 c2 ts => if (k, c) = (k2, c2) then some ts else none
  | _ => none

/-- The last value an update list writes to the AUTHORED edge `(k, c)`. -/
def authoredLast : List GraphUpd → IdentityKey → String → Option Int
  | [], _, _ => none
  | u :: t, k, c =>
    match authoredLast t k c with
    | some ts => some ts
    | none => authoredWr u k c

theorem applyUpd_authored (s : GraphState) (u : GraphUpd) (k : IdentityKey)
    (c : String) :
    (applyUpd s u).authored k c
      = (match authoredWr u k c with
         | some ts => some ts
         | none => s.authored k c) := by
  cases u with
  | setAuthored k2 c2 ts =>
    by_cases hk : (k, c) = (k2, c2)
    · rw [Prod.mk.injEq] at hk
      obtain ⟨rfl, rfl⟩ := hk
      simp [applyUpd, authoredWr]
    · rw [Prod.mk.injEq] at hk
      simp [applyUpd, authoredWr, Prod.mk.injEq, hk]
  | setCommitProps sha p => simp [applyUpd, authoredWr]
  | mergeBareCommit sha => simp [applyUpd, authoredWr]
  | setCommitted k2 sha ts => simp [applyUpd, authoredWr]
  | mergeIdentity k2 => simp [applyUpd, authoredWr]
  | mergeCoAuthored k2 sha => simp [applyUpd, authoredWr]
  | mergeHasParent a b i => simp [applyUpd, authoredWr]

theorem runUpds_authored (L : List GraphUpd) :
    ∀ (s : GraphState) (k : IdentityKey) (c : String),
    (runUpds s L).authored k c
      = (match authoredLast L k c with
         | some ts => some ts
         | none => s.authored k c) := by
  induction L with
  | nil => intro s k c; rfl
  | cons u t ih =>
    intro s k c
    show (runUpds (applyUpd s u) t).authored k c = _
    rw [ih (applyUpd s u) k c, applyUpd_authored,
      show authoredLast (u :: t) k c
        = (match authoredLast t k c with
           | some ts => some ts
           | none => authoredWr u k c) from rfl]
    cases authoredLast t k c <;> cases hw : authoredWr u k c <;> simp [hw]

/-- The value one update writes to the COMMITTED edge `(k, c)`, if any. -/
def committedWr (u : GraphUpd) (k : IdentityKey) (c : String) : Option Int :=
  match u with
  | .setCommitted k2 c2 ts => if (k, c) = (k2, c2) then some ts else none
  | _ => none

/-- The last value an update list writes to the COMMITTED edge `(k, c)`. -/
def committedLast : List GraphUpd → IdentityKey → String → Option Int
  | [], _, _ => none
  | u :: t, k, c =>
    match committedLast t k c with
    | some ts => some ts
    | none => committedWr u k c

theorem applyUpd_committed (s : GraphState) (u : GraphUpd) (k : IdentityKey)
    (c : String) :
    (applyUpd s u).committed k c
      = (match committedWr u k c with
         | some ts => some ts
         | none => s.committed k c) := by
  cases u with
  | setCommitted k2 c2 ts =>
    by_cases hk : (k, c) = (k2, c2)
    · rw [Prod.mk.injEq] at hk
      obtain ⟨rfl, rfl⟩ := hk
      simp [applyUpd, committedWr]
    · rw [Prod.mk.injEq] at hk
      simp [applyUpd, committedWr, Prod.mk.injEq, hk]
  | setCommitProps sha p => simp [applyUpd, committedWr]
  | mergeBareCommit sha => simp [applyUpd, committedWr]
  | setAuthored k2 sha ts => simp [applyUpd, committedWr]
  | mergeIdentity k2 => simp [applyUpd, committedWr]
  | mergeCoAuthored k2 sha => simp [applyUpd, committedWr]
  | mergeHasParent a b i => simp [applyUpd, committedWr]

theorem runUpds_committed (L : List GraphUpd) :
    ∀ (s : GraphState) (k : IdentityKey) (c : String),
    (runUpds s L).committed k c
      = (match committedLast L k c with
         | some ts => some ts
         | none => s.committed k c) := by
  induction L with
  | nil => intro s k c; rfl
  | cons u t ih =>
    intro s k c
    show (runUpds (applyUpd s u) t).committed k c = _
    rw [ih (applyUpd s u) k c, applyUpd_committed,
      show committedLast (u :: t) k c
        = (match committedLast t k c with
           | some ts => some ts
           | none => committedWr u k c) from rfl]
    cases committedLast t k c <;> cases hw : committedWr u k c <;> simp [hw]

/-- Replaying any update list on its own result is the identity. -/
theorem runUpds_replay (L : List GraphUpd) (s : GraphState) :
    runUpds (runUpds s L) L = runUpds s L := by
  apply GraphState.ext
  · funext x
    rw [runUpds_commits, runUpds_commits, applyCommitEff_idem]
  · funext k
    rw [runUpds_identities, runUpds_identities, Bool.or_assoc, Bool.or_self]
  · funext k c
    rw [runUpds_authored, runUpds_authored]
    cases authoredLast L k c <;> simp
  · funext k c
    rw [runUpds_committed, runUpds_committed]
    cases committedLast L k c <;> simp
  · funext k c
    rw [runUpds_coAuthored, runUpds_coAuthored, Bool.or_assoc, Bool.or_self]
  · funext a b i
    rw [runUpds_hasParent, runUpds_hasParent, Bool.or_assoc, Bool.or_self]

/-- C1: submitting the same list of commit rows to the batch commit upsert a
second time leaves the whole graph state — Commit and Identity nodes and the
AUTHORED/COMMITTED/CO_AUTHORED/HAS_PARENT edges, properties included —
exactly as after the first submission: every write is an upsert-by-key whose
property values are functions of the row, so the replay is the identity. -/
theorem batch_upsert_commits_idempotent (s : GraphState) (rows : List CommitRow) :
    batch_upsert_commits (batch_upsert_commits s rows) rows
      = batch_upsert_commits s rows :=
  runUpds_replay (rows.flatMap compileRow) s

/-! ### C3: stage gating -/

/-- C3: if the stage-gate re-read does not show status COMMITS_COMPLETE, the
run performs no ref-snapshot, tag, file-change, event, signature (keys,
edges, or checked marks) or merge-ancestry writes, while the backbone's
commit upsert is retained — the final graph is exactly the initial graph
with the commit rows upserted, and the write language contains no deletion
that could roll it back. -/
theorem stage_gate_blocks_enrichment (runId : String)
    (commitRows : List CommitRow) (gateStatus : Option String)
    (refsW fcW evW csW tsW mW : List DbWrite) (s : DbState)
    (hgate : gateStatus ≠ some "COMMITS_COMPLETE") :
    (runWrites s (process_git_data runId commitRows gateStatus
        refsW fcW evW csW tsW mW)).refStates = s.refStates ∧
    (runWrites s (process_git_data runId commitRows gateStatus
        refsW fcW evW csW tsW mW)).tagObjects = s.tagObjects ∧
    (runWrites s (process_git_data runId commitRows gateStatus
        refsW fcW evW csW tsW mW)).fileChanges = s.fileChanges ∧
    (runWrites s (process_git_data runId commitRows gateStatus
        refsW fcW evW csW tsW mW)).events = s.events ∧
    (runWrites s (process_git_data runId commitRows gateStatus
        refsW fcW evW csW tsW mW)).pgpKeys = s.pgpKeys ∧
    (runWrites s (process_git_data runId commitRows gateStatus
        refsW fcW evW csW tsW mW)).signatures = s.signatures ∧
    (runWrites s (process_git_data runId commitRows gateStatus
        refsW fcW evW csW tsW mW)).checkedMarks = s.checkedMarks ∧
    (runWrites s (process_git_data runId commitRows gateStatus
        refsW fcW evW csW tsW mW)).mergedIncludes = s.mergedIncludes ∧
    (runWrites s (process_git_data runId commitRows gateStatus
        refsW fcW evW csW tsW mW)).graph
      = batch_upsert_commits s.graph commitRows := by
  have htrace : process_git_data runId commitRows gateStatus
      refsW fcW evW csW tsW mW
      = [DbWrite.createConstraints, .createIngestRun runId,
         .upsertCommits commitRows, .setRunStatus runId "COMMITS_COMPLETE"] := by
    unfold process_git_data
    rw [if_neg hgate]
    simp
  rw [htrace]
  exact ⟨rfl, rfl, rfl, rfl, rfl, rfl, rfl, rfl, rfl⟩

/-- A concrete commit row for the witnesses. -/
def c3Row : CommitRow :=
  { sha := "abc123", message := "msg", summary := "msg",
    authoredAt := 100, committedAt := 200, isMerge := false,
    parents := ["def456"], author := ⟨"git", "Alice", "a@example.org"⟩,
    committer := ⟨"git", "Carol", "c@example.org"⟩, coauthors := [] }

/-- An empty store state for the witnesses. -/
def c3Db0 : DbState :=
  { graph := ⟨fun _ => none, fun _ => false, fun _ _ => none,
      fun _ _ => none, fun _ _ => false, fun _ _ _ => false⟩,
    constraintsCreated := false, runStatus := fun _ => none,
    refStates := [], tagObjects := [], fileChanges := [], events := [],
    pgpKeys := [], signatures := [], checkedMarks := [], mergedIncludes := [] }

theorem stage_gate_blocks_enrichment_witness :
    (some "STARTED" ≠ some "COMMITS_COMPLETE") ∧
    (runWrites c3Db0 (process_git_data "r1" [c3Row] (some "STARTED")
        [DbWrite.snapshotRefs "r1" [⟨"master", "branch", "", "abc123"⟩]]
        [] [] [] [] [])).refStates = c3Db0.refStates :=
  ⟨by decide,
    (stage_gate_blocks_enrichment "r1" [c3Row] (some "STARTED")
      [DbWrite.snapshotRefs "r1" [⟨"master", "branch", "", "abc123"⟩]]
      [] [] [] [] [] c3Db0 (by decide)).1⟩

/-! ### C9: the commit-signature stage marks everything it selects -/

theorem collectSigs_fst (oracle : String → Except String (Option String))
    (sel : List String) : (collectSigs sel oracle).1 = sel := by
  have key : ∀ (l : List String) (acc : List String)
      (rows : List (String × String)),
      (l.foldl
        (fun st sha =>
          match oracle sha with
          | .error _ => (st.1 ++ [sha], st.2)
          | .ok none => (st.1 ++ [sha], st.2)
          | .ok (some fp) =>
            if valid40 fp then (st.1 ++ [sha], st.2 ++ [(sha, fp)])
            else (st.1 ++ [sha], st.2))
        (acc, rows)).1 = acc ++ l := by
    intro l
    induction l with
    | nil =>
      intro acc rows
      simp
    | cons sha t ih =>
      intro acc rows
      rw [List.foldl_cons]
      cases ho : oracle sha with
      | error e =>
        simp only [ho]
        rw [ih]
        simp
      | ok osig =>
        cases osig with
        | none =>
          simp only [ho]
          rw [ih]
          simp
        | some fp =>
          by_cases hv : valid40 fp = true
          · simp only [ho, hv, if_true]
            rw [ih]
            simp
          · rw [Bool.not_eq_true] at hv
            simp only [ho, hv, Bool.false_eq_true, if_false]
            rw [ih]
            simp
  exact (key sel [] []).trans (by simp)

/-- C9: after the commit-signature stage runs, every commit its selection
query returned is marked signature_checked — whether the extraction found a
signature, found none, produced an invalid fingerprint, or raised — and,
the selection excluding marked commits, a re-run selects none of them
again. -/
theorem signature_stage_marks_all (db : SigDb)
    (oracle : String → Except String (Option String)) :
    (∀ c ∈ (process_commit_signatures db oracle).commits,
      c.sha ∈ selectUnchecked db → c.checked = true) ∧
    (∀ sha ∈ selectUnchecked db,
      sha ∉ selectUnchecked (process_commit_signatures db oracle)) := by
  have hfst : (collectSigs (selectUnchecked db) oracle).1 = selectUnchecked db :=
    collectSigs_fst oracle (selectUnchecked db)
  have hmarked : ∀ c ∈ (process_commit_signatures db oracle).commits,
      c.sha ∈ selectUnchecked db → c.checked = true := by
    intro c hc hsha
    unfold process_commit_signatures markCheckedDb at hc
    simp only [List.mem_map] at hc
    obtain ⟨c1, hc1, rfl⟩ := hc
    rw [hfst]
    by_cases hin : c1.sha ∈ selectUnchecked db
    · simp [hin]
    · have hsha2 : c1.sha ∈ selectUnchecked db := by
        have hs := hsha
        simp only [apply_ite SigCommitRec.sha, ite_self] at hs
        exact hs
      exact absurd hsha2 hin
  refine ⟨hmarked, ?_⟩
  intro sha hsha hsel2
  unfold selectUnchecked at hsel2
  simp only [List.mem_map, List.mem_filter] at hsel2
  obtain ⟨c, ⟨hcmem, hcpred⟩, hceq⟩ := hsel2
  have hchecked : c.checked = true := hmarked c hcmem (hceq ▸ hsha)
  simp only [Bool.and_eq_true, Bool.not_eq_eq_eq_not, Bool.not_true] at hcpred
  rw [hchecked] at hcpred
  exact absurd hcpred.1 (by decide)

/-- A small store and oracle exercising all outcome kinds: c1 has a valid
signature, c2 raises, c3 is unsigned, c4 was already checked. -/
def c9Db : SigDb :=
  { commits :=
      [⟨"c1", false, false⟩, ⟨"c2", false, false⟩, ⟨"c3", false, false⟩,
       ⟨"c4", true, false⟩],
    sigRows := [] }

def c9Oracle : String → Except String (Option String) := fun sha =>
  if sha = "c1" then .ok (some "1234567890ABCDEF1234567890ABCDEF12345678")
  else if sha = "c2" then .error "subprocess failed"
  else .ok none

theorem signature_stage_marks_all_witness :
    ("c2" ∈ selectUnchecked c9Db) ∧
    "c2" ∉ selectUnchecked (process_commit_signatures c9Db c9Oracle) :=
  ⟨by decide,
    (signature_stage_marks_all c9Db c9Oracle).2 "c2" (by decide)⟩

end CoreExplorer
